import Mathlib

/-!
A shallow embedding of `pythonwhois/net.py` (the WHOIS referral-resolution
core) and proofs about it.

Modelling conventions:

* Python strings are Lean `String`s; character-level scanning is done on
  `String.data : List Char`.
* Python's `re` usage is embedded as specialised matchers that follow the
  backtracking semantics of the two concrete patterns the source compiles
  (the referral pattern `whois_regexp` and the interpolated
  `"Domain Name: %s\n" % domain.upper()` search, in which only the `.`
  characters contributed by the domain act as metacharacters; the embedding
  interprets the interpolated pattern for domains whose characters are
  otherwise regex-literal, which covers every hostname-shaped domain).
* The network (`socket` transport) is an oracle `net : server → request →
  response text`; every call made through it is recorded in an explicit
  call log, so "no network call happens" is a statement about the log.
  The byte-level decoding layer (`_server_process_result`) is modelled
  separately over byte lists and proved total, which justifies letting the
  oracle produce decoded text directly in the resolution model.
* Python's recursion in `get_whois_raw` is modelled with explicit fuel
  (`none` = fuel exhausted); termination theorems show a concrete fuel
  bound suffices.
-/

/-- The whitespace class of Python's `\s` (ASCII range, as relevant to
WHOIS response text): space, tab, newline, carriage return, vertical tab,
form feed. -/
def isPySpace (c : Char) : Bool :=
  c = ' ' || c = '\t' || c = '\n' || c = '\r' || c = '\x0b' || c = '\x0c'

/-- Case-insensitive character comparison, as used by `re.IGNORECASE` on
the ASCII label letters of `whois_regexp`. -/
def ciEq (a b : Char) : Bool := a.toLower = b.toLower

/-- Does `sub` occur as a contiguous substring of `l`?  (Python's
`sub in s` on strings.) -/
def subOccurs (sub l : List Char) : Bool :=
  match l with
  | [] => sub = []
  | _ :: t => (l.take sub.length = sub) || subOccurs sub t

/-- Python `str.strip()`: remove leading and trailing whitespace. -/
def pyStrip (l : List Char) : List Char :=
  ((l.dropWhile isPySpace).reverse.dropWhile isPySpace).reverse

/-- Python `str.upper()` on the ASCII characters of a domain. -/
def pyUpper (s : String) : String := String.mk (s.data.map Char.toUpper)

/-- Python `str.endswith(pattern)`. -/
def pyEndswith (s pattern : String) : Bool := decide (pattern.data <:+ s.data)

/-- Python `response.split("\n\n")`: split on non-overlapping occurrences
of the two-newline separator, scanning left to right. -/
def splitDoubleNL : List Char → List (List Char)
  | [] => [[]]
  | '\n' :: '\n' :: rest => [] :: splitDoubleNL rest
  | c :: rest =>
    match splitDoubleNL rest with
    | h :: t => (c :: h) :: t
    | [] => [[c]]

/-- Python `bytes.split(b".")` / label splitting on `.` used by the IDNA
codec's ASCII fast path. -/
def splitDot : List Char → List (List Char)
  | [] => [[]]
  | '.' :: rest => [] :: splitDot rest
  | c :: rest =>
    match splitDot rest with
    | h :: t => (c :: h) :: t
    | [] => [[c]]

/-- Matching one literal pattern character of the interpolated
`re.search("Domain Name: %s\n" % domain.upper(), record)` pattern: a `.`
(contributed by the domain) matches any character except newline, every
other character matches itself. -/
def patCharMatches (p c : Char) : Bool :=
  if p = '.' then c ≠ '\n' else p = c

/-- Does the interpolated pattern match at the head of `text`? -/
def patMatchesAt : List Char → List Char → Bool
  | [], _ => true
  | _ :: _, [] => false
  | p :: ps, c :: cs => patCharMatches p c && patMatchesAt ps cs

/-- Python `re.search(pat, text) is not None` for the interpolated
verisign pattern: the pattern matches at some position of `text`. -/
def reSearch (pat : List Char) : List Char → Bool
  | [] => patMatchesAt pat []
  | l@(_ :: t) => patMatchesAt pat l || reSearch pat t

/-- Case-insensitive literal match of a label at the head of `l`,
returning the remaining characters on success. -/
def matchLabel : List Char → List Char → Option (List Char)
  | [], l => some l
  | _ :: _, [] => none
  | p :: ps, c :: cs => if ciEq p c then matchLabel ps cs else none

/-- The alternatives of `whois_regexp`, in the source's alternation order:
`refer|whois server|referral url|whois server|registrar whois`. -/
def whois_regexp_labels : List (List Char) :=
  ["refer".data, "whois server".data, "referral url".data,
   "whois server".data, "registrar whois".data]

/-- Does the token run have a dot at an interior position (the
`[^\s]+\.[^\s]+` shape: at least one non-space character on each side of a
literal dot)? -/
def hasInteriorDot (run : List Char) : Bool :=
  ((run.drop 1).dropLast).contains '.'

/-- Attempt to match `label:` followed by `\s*` and a non-space token
containing an interior dot, starting exactly at the head of `l`.  Returns
the captured token (the full maximal non-space run, which is what the
greedy `([^\s]+\.[^\s]+)` group captures) and the rest of the input after
the match. -/
def matchWithLabel (lab l : List Char) : Option (List Char × List Char) :=
  match matchLabel lab l with
  | none => none
  | some [] => none
  | some (c :: r2) =>
    if c = ':' then
      let afterWS := r2.dropWhile isPySpace
      let run := afterWS.takeWhile (fun c => !isPySpace c)
      let rest := afterWS.dropWhile (fun c => !isPySpace c)
      if hasInteriorDot run then some (run, rest) else none
    else none

/-- One attempt of `whois_regexp` anchored at the head of `l`: the
alternatives are tried in the pattern's order and the first one that lets
the whole pattern succeed wins (backtracking alternation). -/
def matchAt (l : List Char) : Option (List Char × List Char) :=
  whois_regexp_labels.findSome? (fun lab => matchWithLabel lab l)

/-- Scanning engine of `whois_regexp.findall(response)`: try the pattern
at each position from the left; on a match, emit the captured token and
resume after the match (non-overlapping matches); otherwise advance one
character.  The position fuel `n` is initialised to the input length,
which suffices because every successful match consumes at least the label,
the colon and the token. -/
def findallAux : Nat → List Char → List (List Char)
  | 0, _ => []
  | _ + 1, [] => []
  | n + 1, l@(_ :: t) =>
    match matchAt l with
    | some (cap, rest) => cap :: findallAux n rest
    | none => findallAux n t

/-- Python `whois_regexp.findall(response)`: the list of captured referral
tokens, in scan order. -/
def whois_regexp_findall (response : List Char) : List (List Char) :=
  findallAux response.length response

/-- The loop body of `extract_whois_server`: walk the `findall` items in
order and return the first stripped token that is not in `server_list`
and does not contain `"://"`. -/
def extractLoop : List (List Char) → List (List Char) → Option (List Char)
  | [], _ => none
  | item :: rest, server_list =>
    let server := pyStrip item
    if !server_list.contains server && !subOccurs "://".data server then
      some server
    else
      extractLoop rest server_list

structure WhoisParser where
  domain : String
  rfc3490 : Bool
deriving DecidableEq, Repr

/-- One recorded network round trip: which server was contacted and with
which request line. -/
structure NetCall where
  server : String
  request : String
deriving DecidableEq, Repr

/-- Errors surfaced by the resolver, named after the spec's error kinds:
`unicodeError` is the IDNA `EncodingError`, `noAuthority` is the
`WhoisException("No root WHOIS server found for domain.")`, and
`decodeError` is the `ValueError` naming the offending server in
`_server_process_result`. -/
inductive WhoisErr where
  | unicodeError (msg : String)
  | noAuthority
  | decodeError (server : String)
deriving DecidableEq, Repr

namespace WhoisParser

def IANA_SERVER : String := "whois.iana.org"

/-- The `root_servers` static override table, in the source's (dict
insertion) order. -/
def root_servers : List (String × String) :=
  [(".ac.uk", "whois.ja.net"),
   (".ps", "whois.pnina.ps"),
   (".buzz", "whois.nic.buzz"),
   (".moe", "whois.nic.moe"),
   ("example.com", "whois.verisign-grs.com")]

/-- `get_default_server`: return the server of the first table entry whose
pattern is a suffix of `domain` (Python `str.endswith`, case-sensitive);
`none` when no entry matches (the Python function falls off the end and
returns `None`). -/
def get_default_server (domain : String) : Option String :=
  root_servers.findSome?
    (fun p => if pyEndswith domain p.1 then some p.2 else none)

/-- `prepare_request`: the per-server quirk table, first matching branch
wins. -/
def prepare_request (domain server : String) : String :=
  if server = "whois.jprs.jp" then
    domain ++ "/e"
  else if pyEndswith domain ".de"
      && (server = "whois.denic.de" || server = "de.whois-servers.net") then
    "-T dn,ace " ++ domain
  else if server = "whois.verisign-grs.com" then
    "=" ++ domain
  else
    domain

/-- `extract_whois_server(response, server_list)`: `server_list or []` is
the identity on lists (the `None` default is modelled by passing `[]`),
then the first qualifying `findall` token is returned. -/
def extract_whois_server (response : List Char) (server_list : List (List Char)) :
    Option (List Char) :=
  extractLoop (whois_regexp_findall response) server_list

/-- String-level wrapper for `extract_whois_server`. -/
def extract_whois_serverS (response : String) (server_list : List String) :
    Option String :=
  (extract_whois_server response.data (server_list.map String.data)).map String.mk

/-- The verisign record-selection loop inside `_process_response`: walk the
`"\n\n"`-separated blocks of the response and replace it with the first
block in which `re.search("Domain Name: %s\n" % domain.upper(), record)`
succeeds; if no block matches, the response is left unmodified. -/
def verisign_select (domain response : String) : String :=
  let pat : List Char := "Domain Name: ".data ++ (pyUpper domain).data ++ ['\n']
  match (splitDoubleNL response.data).find? (fun record => reSearch pat record) with
  | some record => String.mk record
  | none => response

/-- `_process_response(response, domain, server, previous, server_list,
never_cut)` (the leading underscore is dropped for Lean): the mutations on
`previous` and `server_list` are returned explicitly, as
(returned response, previous, server_list). -/
def process_response (response domain server : String)
    (previous server_list : List String) (never_cut : Bool) :
    String × List String × List String :=
  let previous := if never_cut then response :: previous else previous
  let response :=
    if server = "whois.verisign-grs.com" then verisign_select domain response
    else response
  let previous := if !never_cut then response :: previous else previous
  (response, previous, server_list ++ [server])

end WhoisParser

/-- Modelled from the spec: the Domain Normalizer (`encode(domain, "idna")`
of the Python `codecs`/`encodings.idna` standard library, which is not part
of this repository).  Per the spec, it "encodes `domain` to
ASCII-Compatible-Encoding form per the IDNA algorithm" and fails with an
`EncodingError` on invalid label lengths; ASCII-only inputs take a fast
path that checks every label (split on `.`) is 1–63 characters (the final
label may also be empty, allowing a trailing dot) and returns the input
unchanged.  The non-ASCII path (nameprep + punycode per label) is
abstracted as the parameter `toAsciiNA`; no theorem below depends on it. -/
def idnaEncode (toAsciiNA : String → Except String String) (input : String) :
    Except String String :=
  if input = "" then .ok ""
  else if input.data.all (fun c => c.toNat < 128) then
    let labels := splitDot input.data
    if labels.dropLast.all (fun lab => 0 < lab.length && lab.length < 64)
        && (labels.getLastD []).length < 64 then
      .ok input
    else
      .error "label empty or too long"
  else
    toAsciiNA input

namespace WhoisParser

/-- `convert_to_rfc3490` (the Python 3 branch:
`encode(domain, "idna").decode("ascii")`; the produced bytes are ASCII, so
the final decode is the identity). -/
def convert_to_rfc3490 (toAsciiNA : String → Except String String)
    (domain : String) : Except String String :=
  idnaEncode toAsciiNA domain

end WhoisParser

/-- The resolver's environment: the network oracle (decoded response text
per server and request line — the byte/decode layer is modelled separately
by `server_process_result` and proved total) and the abstract non-ASCII
IDNA path. -/
structure Env where
  net : String → String → String
  toAsciiNA : String → Except String String

namespace WhoisParser

/-- The domain string used on the wire:
`self.domain_rfc3490 if self.rfc3490 else self.domain`. -/
def usedDomain (env : Env) (ps : WhoisParser) : Except String String :=
  if ps.rfc3490 then convert_to_rfc3490 env.toAsciiNA ps.domain
  else .ok ps.domain

/-- `get_root_server`: the static override table first (no network call —
the log is returned untouched); otherwise one IANA query, whose referral
extraction runs with no prior server list, raising the no-authority error
when it yields nothing. -/
def get_root_server (env : Env) (ps : WhoisParser) (log : List NetCall) :
    Except WhoisErr (String × List NetCall) :=
  match get_default_server ps.domain with
  | some s => .ok (s, log)
  | none =>
    match usedDomain env ps with
    | .error msg => .error (.unicodeError msg)
    | .ok domain =>
      let data := env.net IANA_SERVER domain
      let log := log ++ [⟨IANA_SERVER, domain⟩]
      match extract_whois_serverS data [] with
      | none => .error .noAuthority
      | some s => .ok (s, log)

/-- `get_whois_raw` (the recursive method), with explicit fuel: `none`
means the fuel ran out before the referral chase ended.  The `server`
argument models the Python parameter (default `None`); `previous or []`
and `server_list or []` are the identity on the explicit lists passed
here.  `server or self.get_root_server()` consults the root locator
exactly when `server` is falsy (`None` or the empty string).  The
successful result carries the Response Chain, the Visited Server List and
the network-call log (the `with_server_list` flag of the source only
selects which of the first two components is handed back and is not
modelled separately). -/
def get_whois_raw_method (env : Env) (ps : WhoisParser) :
    Nat → Option String → List String → Bool → List String → List NetCall →
    Option (Except WhoisErr (List String × List String × List NetCall))
  | 0, _, _, _, _, _ => none
  | fuel + 1, server, previous, never_cut, server_list, log =>
    let chosen : Except WhoisErr (String × List NetCall) :=
      match server with
      | none => get_root_server env ps log
      | some s => if s = "" then get_root_server env ps log else .ok (s, log)
    match chosen with
    | .error e => some (.error e)
    | .ok (whois_server, log) =>
      match usedDomain env ps with
      | .error msg => some (.error (.unicodeError msg))
      | .ok domain =>
        let request := prepare_request domain whois_server
        let response := env.net whois_server request
        let log := log ++ [⟨whois_server, request⟩]
        match process_response response domain whois_server previous server_list never_cut with
        | (response, previous, server_list) =>
          match extract_whois_serverS response server_list with
          | some new_server =>
            get_whois_raw_method env ps fuel (some new_server) previous never_cut server_list log
          | none => some (.ok (previous, server_list, log))

end WhoisParser

/-- The module-level `get_whois_raw(domain, server="", rfc3490=True,
never_cut=False)`: builds a parser and delegates, passing its `server`
argument (note: a `String`, not `None`) through. -/
def get_whois_raw (env : Env) (fuel : Nat) (domain server : String)
    (rfc3490 never_cut : Bool) :
    Option (Except WhoisErr (List String × List String × List NetCall)) :=
  WhoisParser.get_whois_raw_method env ⟨domain, rfc3490⟩ fuel (some server)
    [] never_cut [] []

/-- The module-level `get_whois_raw` with all defaulted arguments at their
source defaults (`server=""`, `rfc3490=True`, `never_cut=False`). -/
def get_whois_raw_defaults (env : Env) (fuel : Nat) (domain : String) :
    Option (Except WhoisErr (List String × List String × List NetCall)) :=
  get_whois_raw env fuel domain "" true false

/-- The module-level `get_root_server(domain)` (spec: `locate_root`):
builds a parser with default `rfc3490=True` and delegates. -/
def get_root_server (env : Env) (domain : String) :
    Except WhoisErr (String × List NetCall) :=
  WhoisParser.get_root_server env ⟨domain, true⟩ []

/-- Is `b` a UTF-8 continuation byte (`0x80`–`0xBF`)? -/
def utf8Cont (b : Nat) : Bool := 0x80 ≤ b && b ≤ 0xBF

/-- Strict UTF-8 decoding of a byte buffer to a list of code points
(`bytes.decode("utf-8")`): rejects stray continuation bytes, overlong
forms, surrogate encodings and code points above `U+10FFFF`, returning
`none` exactly when Python raises `UnicodeDecodeError`. -/
def utf8Decode : List Nat → Option (List Nat)
  | [] => some []
  | b :: bs =>
    if b ≤ 0x7F then (utf8Decode bs).map (b :: ·)
    else if b ≤ 0xC1 then none
    else if b ≤ 0xDF then
      match bs with
      | b1 :: bs1 =>
        if utf8Cont b1 then
          (utf8Decode bs1).map (((b - 0xC0) * 0x40 + (b1 - 0x80)) :: ·)
        else none
      | [] => none
    else if b ≤ 0xEF then
      match bs with
      | b1 :: b2 :: bs2 =>
        let lo1 := if b = 0xE0 then 0xA0 else 0x80
        let hi1 := if b = 0xED then 0x9F else 0xBF
        if lo1 ≤ b1 && b1 ≤ hi1 && utf8Cont b2 then
          (utf8Decode bs2).map
            (((b - 0xE0) * 0x1000 + (b1 - 0x80) * 0x40 + (b2 - 0x80)) :: ·)
        else none
      | _ => none
    else if b ≤ 0xF4 then
      match bs with
      | b1 :: b2 :: b3 :: bs3 =>
        let lo1 := if b = 0xF0 then 0x90 else 0x80
        let hi1 := if b = 0xF4 then 0x8F else 0xBF
        if lo1 ≤ b1 && b1 ≤ hi1 && utf8Cont b2 && utf8Cont b3 then
          (utf8Decode bs3).map
            (((b - 0xF0) * 0x40000 + (b1 - 0x80) * 0x1000
              + (b2 - 0x80) * 0x40 + (b3 - 0x80)) :: ·)
        else none
      | _ => none
    else none

/-- ISO-8859-1 decoding (`bytes.decode("iso-8859-1")`): every byte maps
directly to the code point of the same value, so decoding always
succeeds. -/
def latin1Decode (bs : List Nat) : Option (List Nat) := some bs

namespace WhoisParser

/-- `_server_process_result(result, server)` (leading underscore dropped):
try the encodings `("utf-8", "iso-8859-1")` in order, swallowing decode
failures, and raise the `ValueError` naming the server if both fail.
Decoded text is represented as the list of code points. -/
def server_process_result (result : List Nat) (server : String) :
    Except WhoisErr (List Nat) :=
  match utf8Decode result with
  | some text => .ok text
  | none =>
    match latin1Decode result with
    | some text => .ok text
    | none => .error (.decodeError server)

end WhoisParser

/-!  Derived definitions used by the theorems below (not part of the
source, but defined from the embedded source functions). -/

/-- The "local view" of a response inside `_process_response`: for the
verisign server the record-selected block, otherwise the response itself.
By `process_response_spec` below, this is both what referral scanning sees
and what is inserted into the chain when `never_cut` is false. -/
def cutResponse (domain server response : String) : String :=
  if server = "whois.verisign-grs.com" then
    WhoisParser.verisign_select domain response
  else response

/-- The referral server, if any, that one loop iteration of
`get_whois_raw` extracts after querying `srv` with visited list `sl`:
extraction runs on the cut view of the response against `sl` with `srv`
already appended (the source appends the server before extracting). -/
def iterReferral (env : Env) (d : String) (srv : String) (sl : List String) :
    Option String :=
  WhoisParser.extract_whois_serverS
    (cutResponse d srv (env.net srv (WhoisParser.prepare_request d srv)))
    (sl ++ [srv])

/-- How many servers of the universe `S` are not yet in the visited list
`sl` — the termination measure of the referral chase. -/
def remainingCount (S sl : List String) : Nat :=
  (S.filter (fun x => decide (x ∉ sl))).length

/-- Is the string in ASCII-Compatible-Encoding form, as accepted by the
IDNA encoder's fast path: every character ASCII, every non-final label
(split on `.`) 1–63 characters, and the final label under 64 characters
(it may be empty, allowing a trailing dot)? -/
def aceForm (s : String) : Bool :=
  s.data.all (fun c => c.toNat < 128) &&
  (splitDot s.data).dropLast.all (fun lab => 0 < lab.length && lab.length < 64) &&
  ((splitDot s.data).getLastD []).length < 64

/-- A trivial instantiation of the abstract non-ASCII IDNA path, used
only in concrete test environments (never reached on ASCII inputs). -/
def idOk : String → Except String String := fun s => .ok s

/-- A concrete environment whose every response carries a fixed referral
to `whois.other.example`. -/
def envRefer : Env := ⟨fun _ _ => "refer: whois.other.example\n", idOk⟩

/-- A concrete environment whose every response is referral-free. -/
def envPlain : Env := ⟨fun _ _ => "hello world", idOk⟩

/-- A concrete environment in which the verisign server returns a
two-block response (block 1 for `OTHER.COM`, block 2 for `EXAMPLE.COM`)
and every other server returns nothing of interest. -/
def envVerisign : Env :=
  ⟨fun srv _ =>
    if srv = "whois.verisign-grs.com" then
      "Domain Name: OTHER.COM\nRegistrar A\n\nDomain Name: EXAMPLE.COM\nRegistrar B"
    else "",
   idOk⟩

/-- A concrete environment producing a two-query referral chain:
`whois.first.example` refers to `whois.second.example`, which answers
with a referral-free terminal record. -/
def envChain : Env :=
  ⟨fun srv _ =>
    if srv = "whois.first.example" then
      "Whois Server: whois.second.example\n"
    else "terminal record",
   idOk⟩

/-- The body of one `get_whois_raw` iteration once the server to query
has been chosen: query it, process the response, and either recurse on an
extracted referral or return.  `get_whois_raw_method` is exactly a
server-choice step (`server or self.get_root_server()`) followed by this
body; the claim-C10 theorem proves that equation. -/
def get_whois_raw_from (env : Env) (ps : WhoisParser) (fuel : Nat)
    (whois_server : String) (previous : List String) (never_cut : Bool)
    (server_list : List String) (log : List NetCall) :
    Option (Except WhoisErr (List String × List String × List NetCall)) :=
  match WhoisParser.usedDomain env ps with
  | .error msg => some (.error (.unicodeError msg))
  | .ok domain =>
    let request := WhoisParser.prepare_request domain whois_server
    let response := env.net whois_server request
    let log := log ++ [⟨whois_server, request⟩]
    match WhoisParser.process_response response domain whois_server
        previous server_list never_cut with
    | (response, previous, server_list) =>
      match WhoisParser.extract_whois_serverS response server_list with
      | some new_server =>
        WhoisParser.get_whois_raw_method env ps fuel (some new_server)
          previous never_cut server_list log
      | none => some (.ok (previous, server_list, log))

/-- The claim-level description of a referral token: somewhere in the
response one of the pattern's labels occurs (case-insensitively), followed
by a colon, optional whitespace, and the token — a maximal run of
non-whitespace characters containing a dot at an interior position. -/
def ReferralToken (resp cap : List Char) : Prop :=
  ∃ pre labTxt ws post lab,
    lab ∈ whois_regexp_labels ∧
    resp = pre ++ labTxt ++ ':' :: (ws ++ cap ++ post) ∧
    labTxt.map Char.toLower = lab ∧
    (∀ c ∈ ws, isPySpace c = true) ∧
    (∀ c ∈ cap, ¬ isPySpace c = true) ∧
    hasInteriorDot cap = true

/-!  Shared lemmas about the referral extractor. -/

theorem extractLoop_eq_find? (items server_list : List (List Char)) :
    extractLoop items server_list =
      (items.map pyStrip).find?
        (fun s => !server_list.contains s && !subOccurs "://".data s) := by
  induction items with
  | nil => rfl
  | cons item rest ih =>
    simp only [extractLoop, List.map_cons, List.find?_cons]
    by_cases h : (!server_list.contains (pyStrip item)
        && !subOccurs "://".data (pyStrip item)) = true
    · rw [if_pos h, h]
    · rw [if_neg h, ih]
      rw [Bool.not_eq_true] at h
      rw [h]

theorem extractLoop_some {items server_list : List (List Char)}
    {s : List Char} (h : extractLoop items server_list = some s) :
    s ∉ server_list ∧ subOccurs "://".data s = false ∧
      ∃ item ∈ items, s = pyStrip item := by
  induction items with
  | nil => simp [extractLoop] at h
  | cons item rest ih =>
    simp only [extractLoop] at h
    by_cases hc : (!server_list.contains (pyStrip item)
        && !subOccurs "://".data (pyStrip item)) = true
    · rw [if_pos hc] at h
      cases h
      simp only [Bool.and_eq_true, Bool.not_eq_true'] at hc
      refine ⟨?_, hc.2, item, by simp, rfl⟩
      intro hmem
      have h2 : server_list.contains (pyStrip item) = true := List.elem_iff.mpr hmem
      rw [hc.1] at h2
      exact Bool.false_ne_true h2
    · rw [if_neg hc] at h
      obtain ⟨h1, h2, item2, hm, hs⟩ := ih h
      exact ⟨h1, h2, item2, List.mem_cons_of_mem _ hm, hs⟩

theorem extractLoop_none_of_all {items server_list : List (List Char)}
    (h : ∀ item ∈ items, pyStrip item ∈ server_list ∨
        subOccurs "://".data (pyStrip item) = true) :
    extractLoop items server_list = none := by
  induction items with
  | nil => rfl
  | cons item rest ih =>
    simp only [extractLoop]
    have hi := h item (by simp)
    have hc : (!server_list.contains (pyStrip item)
        && !subOccurs "://".data (pyStrip item)) ≠ true := by
      intro h1
      simp only [Bool.and_eq_true, Bool.not_eq_true'] at h1
      rcases hi with hm | hs
      · have h2 : server_list.contains (pyStrip item) = true := List.elem_iff.mpr hm
        rw [h1.1] at h2
        exact Bool.false_ne_true h2
      · rw [h1.2] at hs
        exact Bool.false_ne_true hs
    rw [if_neg hc]
    exact ih (fun i hi2 => h i (List.mem_cons_of_mem _ hi2))

theorem matchLabel_some {lab l r : List Char} (h : matchLabel lab l = some r) :
    ∃ labTxt, l = labTxt ++ r ∧
      labTxt.map Char.toLower = lab.map Char.toLower := by
  induction lab generalizing l with
  | nil =>
    cases h
    exact ⟨[], rfl, rfl⟩
  | cons p ps ih =>
    cases l with
    | nil => exact absurd h (by simp [matchLabel])
    | cons c cs =>
      simp only [matchLabel] at h
      by_cases hce : ciEq p c = true
      · rw [if_pos hce] at h
        obtain ⟨labTxt, hl, hmap⟩ := ih h
        refine ⟨c :: labTxt, by rw [List.cons_append, hl], ?_⟩
        simp only [List.map_cons, hmap, List.cons.injEq]
        simp only [ciEq, decide_eq_true_eq] at hce
        exact ⟨hce.symm, trivial⟩
      · rw [if_neg hce] at h
        exact absurd h (by simp)

theorem matchWithLabel_some {lab l cap rest : List Char}
    (h : matchWithLabel lab l = some (cap, rest)) :
    (∀ c ∈ cap, ¬ isPySpace c = true) ∧ hasInteriorDot cap = true ∧
      ∃ labTxt ws, l = labTxt ++ ':' :: (ws ++ cap ++ rest) ∧
        labTxt.map Char.toLower = lab.map Char.toLower ∧
        ∀ c ∈ ws, isPySpace c = true := by
  unfold matchWithLabel at h
  cases hm : matchLabel lab l with
  | none => rw [hm] at h; exact Option.noConfusion h
  | some r =>
    rw [hm] at h
    cases r with
    | nil => exact Option.noConfusion h
    | cons c r2 =>
      simp only at h
      by_cases hcol : c = ':'
      · rw [if_pos hcol] at h
        subst hcol
        by_cases hd : hasInteriorDot ((r2.dropWhile isPySpace).takeWhile
            (fun c => !isPySpace c)) = true
        · rw [if_pos hd] at h
          injection h with h
          injection h with hcap hrest
          subst hcap; subst hrest
          obtain ⟨labTxt, hl, hmap⟩ := matchLabel_some hm
          refine ⟨?_, hd, labTxt, r2.takeWhile isPySpace, ?_, hmap, ?_⟩
          · intro c hc
            have := List.mem_takeWhile_imp hc
            simpa using this
          · rw [hl]
            congr 2
            rw [List.append_assoc,
              List.takeWhile_append_dropWhile (p := fun c => !isPySpace c),
              List.takeWhile_append_dropWhile (p := isPySpace)]
          · intro c hc
            exact List.mem_takeWhile_imp hc
        · rw [if_neg hd] at h
          exact Option.noConfusion h
      · rw [if_neg hcol] at h
        exact Option.noConfusion h

theorem matchAt_some {l cap rest : List Char}
    (h : matchAt l = some (cap, rest)) :
    ∃ lab ∈ whois_regexp_labels, matchWithLabel lab l = some (cap, rest) := by
  obtain ⟨lab, hm, he⟩ := List.exists_of_findSome?_eq_some h
  exact ⟨lab, hm, he⟩

theorem dropWhile_eq_self_of_all {p : Char → Bool} {l : List Char}
    (h : ∀ c ∈ l, ¬ p c = true) : l.dropWhile p = l := by
  cases l with
  | nil => rfl
  | cons c t =>
    rw [List.dropWhile_cons]
    rw [if_neg (h c (by simp))]

theorem pyStrip_eq_self {l : List Char} (h : ∀ c ∈ l, ¬ isPySpace c = true) :
    pyStrip l = l := by
  unfold pyStrip
  rw [dropWhile_eq_self_of_all h,
    dropWhile_eq_self_of_all (by intro c hc; exact h c (List.mem_reverse.mp hc)),
    List.reverse_reverse]

theorem hasInteriorDot_ne_nil {cap : List Char} (h : hasInteriorDot cap = true) :
    cap ≠ [] := by
  intro he
  subst he
  simp [hasInteriorDot] at h

theorem findallAux_mem {n : Nat} {l cap : List Char}
    (h : cap ∈ findallAux n l) :
    (∀ c ∈ cap, ¬ isPySpace c = true) ∧ hasInteriorDot cap = true := by
  induction n generalizing l with
  | zero => simp [findallAux] at h
  | succ n ih =>
    cases l with
    | nil => simp [findallAux] at h
    | cons c t =>
      simp only [findallAux] at h
      cases hm : matchAt (c :: t) with
      | some pr =>
        rw [hm] at h
        rcases List.mem_cons.mp h with hc | hrec
        · subst hc
          obtain ⟨lab, _, he⟩ := @matchAt_some (c :: t) pr.1 pr.2 (by rw [hm])
          obtain ⟨h1, h2, _⟩ := matchWithLabel_some he
          exact ⟨h1, h2⟩
        · exact ih hrec
      | none =>
        rw [hm] at h
        exact ih h

theorem whois_regexp_findall_mem {l cap : List Char}
    (h : cap ∈ whois_regexp_findall l) :
    (∀ c ∈ cap, ¬ isPySpace c = true) ∧ hasInteriorDot cap = true :=
  findallAux_mem h

theorem whois_regexp_findall_map_strip (l : List Char) :
    (whois_regexp_findall l).map pyStrip = whois_regexp_findall l := by
  rw [show whois_regexp_findall l = (whois_regexp_findall l).map id by
    rw [List.map_id]]
  rw [List.map_map]
  apply List.map_congr_left
  intro cap hcap
  simp only [Function.comp, id]
  exact pyStrip_eq_self (whois_regexp_findall_mem (by simpa using hcap)).1

theorem whois_regexp_labels_lower {lab : List Char}
    (h : lab ∈ whois_regexp_labels) : lab.map Char.toLower = lab := by
  simp only [whois_regexp_labels, List.mem_cons, List.not_mem_nil, or_false] at h
  rcases h with h | h | h | h | h <;> subst h <;> decide

theorem ReferralToken.prepend {resp cap : List Char} (pre0 : List Char)
    (h : ReferralToken resp cap) : ReferralToken (pre0 ++ resp) cap := by
  obtain ⟨pre, labTxt, ws, post, lab, h1, h2, h3, h4, h5, h6⟩ := h
  exact ⟨pre0 ++ pre, labTxt, ws, post, lab, h1,
    by rw [h2]; simp [List.append_assoc], h3, h4, h5, h6⟩

theorem findallAux_referralToken {n : Nat} {l cap : List Char}
    (h : cap ∈ findallAux n l) : ReferralToken l cap := by
  induction n generalizing l with
  | zero => simp [findallAux] at h
  | succ n ih =>
    cases l with
    | nil => simp [findallAux] at h
    | cons c t =>
      simp only [findallAux] at h
      cases hm : matchAt (c :: t) with
      | some pr =>
        rw [hm] at h
        obtain ⟨lab, hlab, he⟩ := @matchAt_some (c :: t) pr.1 pr.2 (by rw [hm])
        obtain ⟨h1, h2, labTxt, ws, hdec, hmap, hws⟩ := matchWithLabel_some he
        rcases List.mem_cons.mp h with hc | hrec
        · subst hc
          refine ⟨[], labTxt, ws, pr.2, lab, hlab, by simpa using hdec,
            by rw [hmap, whois_regexp_labels_lower hlab], hws, h1, h2⟩
        · have hrt := ih hrec
          have : c :: t = (labTxt ++ ':' :: (ws ++ pr.1)) ++ pr.2 := by
            rw [hdec]
            simp [List.append_assoc]
          rw [this]
          exact hrt.prepend _
      | none =>
        rw [hm] at h
        have hrt := ih h
        have : c :: t = [c] ++ t := rfl
        rw [this]
        exact hrt.prepend _

theorem whois_regexp_findall_referralToken {l cap : List Char}
    (h : cap ∈ whois_regexp_findall l) : ReferralToken l cap :=
  findallAux_referralToken h

theorem extract_whois_serverS_some {resp : String} {sl : List String}
    {s : String} (h : WhoisParser.extract_whois_serverS resp sl = some s) :
    s ∉ sl ∧ s ≠ "" := by
  unfold WhoisParser.extract_whois_serverS WhoisParser.extract_whois_server at h
  cases he : extractLoop (whois_regexp_findall resp.data) (sl.map String.data) with
  | none => rw [he] at h; exact Option.noConfusion h
  | some sd =>
    rw [he] at h
    injection h with h
    subst h
    obtain ⟨hnm, _, item, hitem, hsd⟩ := extractLoop_some he
    constructor
    · intro hmem
      exact hnm (by
        show (String.mk sd).data ∈ sl.map String.data
        exact List.mem_map_of_mem String.data hmem)
    · intro hes
      have hdl : sd = [] := congrArg String.data hes
      obtain ⟨hns, hdot⟩ := whois_regexp_findall_mem hitem
      rw [hsd, pyStrip_eq_self hns] at hdl
      exact hasInteriorDot_ne_nil hdot hdl

theorem process_response_spec (response domain server : String)
    (previous server_list : List String) (nc : Bool) :
    WhoisParser.process_response response domain server previous server_list nc =
      (cutResponse domain server response,
       (if nc then response else cutResponse domain server response) :: previous,
       server_list ++ [server]) := by
  unfold WhoisParser.process_response cutResponse
  cases nc <;> simp

theorem filter_length_mono {α : Type} (S : List α) (P Q : α → Bool)
    (hPQ : ∀ x, P x = true → Q x = true) :
    (S.filter P).length ≤ (S.filter Q).length := by
  induction S with
  | nil => exact Nat.le_refl 0
  | cons x t ih =>
    simp only [List.filter_cons]
    cases hP : P x with
    | true =>
      rw [hPQ x hP]
      simpa using ih
    | false =>
      cases hQ : Q x with
      | true => simp only [List.length_cons]; exact Nat.le_succ_of_le ih
      | false => exact ih

theorem filter_length_lt {α : Type} (S : List α) (P Q : α → Bool)
    (hPQ : ∀ x, P x = true → Q x = true) (c : α) (hc : c ∈ S)
    (hPc : P c = false) (hQc : Q c = true) :
    (S.filter P).length < (S.filter Q).length := by
  induction S with
  | nil => exact absurd hc (List.not_mem_nil c)
  | cons x t ih =>
    simp only [List.filter_cons]
    rcases List.mem_cons.mp hc with hx | hx
    · subst hx
      rw [hPc, hQc]
      simp only [List.length_cons]
      exact Nat.lt_succ_of_le (filter_length_mono t P Q hPQ)
    · cases hP : P x with
      | true =>
        rw [hPQ x hP]
        simpa using ih hx
      | false =>
        cases hQ : Q x with
        | true =>
          simp only [List.length_cons]
          exact Nat.lt_succ_of_lt (ih hx)
        | false => exact ih hx

theorem remainingCount_append_le (S sl : List String) (c : String) :
    remainingCount S (sl ++ [c]) ≤ remainingCount S sl := by
  apply filter_length_mono
  intro x hx
  simp only [decide_eq_true_eq] at hx ⊢
  intro hmem
  exact hx (List.mem_append_left _ hmem)

theorem remainingCount_append_lt {S sl : List String} {c : String}
    (hcS : c ∈ S) (hcsl : c ∉ sl) :
    remainingCount S (sl ++ [c]) < remainingCount S sl := by
  apply filter_length_lt (c := c)
  · intro x hx
    simp only [decide_eq_true_eq] at hx ⊢
    intro hmem
    exact hx (List.mem_append_left _ hmem)
  · exact hcS
  · simp
  · simp [hcsl]

theorem remainingCount_pos {S sl : List String} {c : String}
    (hcS : c ∈ S) (hcsl : c ∉ sl) : 1 ≤ remainingCount S sl := by
  have : c ∈ S.filter (fun x => decide (x ∉ sl)) :=
    List.mem_filter.mpr ⟨hcS, by simp [hcsl]⟩
  have := List.length_pos.mpr (List.ne_nil_of_mem this)
  exact this

theorem nodup_append_singleton {sl : List String} {c : String}
    (h1 : sl.Nodup) (h2 : c ∉ sl) : (sl ++ [c]).Nodup := by
  rw [List.nodup_append]
  exact ⟨h1, List.nodup_singleton c, by
    intro x hx hc
    rw [List.mem_singleton] at hc
    subst hc
    exact h2 hx⟩

/-- The workhorse for the termination and no-repeated-server claims: when
the loop is entered with a non-empty, unvisited server and every referral
the environment can ever produce lies in the finite universe `S`, the loop
terminates within the stated fuel, the visited list stays duplicate-free
and grows only by the entry server and members of `S`, and each query adds
exactly one response, one visited server and one logged call. -/
theorem get_whois_raw_loop_aux (env : Env) (ps : WhoisParser) (nc : Bool)
    (S : List String) (d : String)
    (hd : WhoisParser.usedDomain env ps = .ok d)
    (HS : ∀ srv sl s, iterReferral env d srv sl = some s → s ∈ S) :
    ∀ fuel s sl prev log,
      s ≠ "" → s ∉ sl → sl.Nodup →
      (s ∈ S ∧ remainingCount S sl ≤ fuel ∨ remainingCount S sl + 1 ≤ fuel) →
      ∃ prev2 sl2 log2,
        WhoisParser.get_whois_raw_method env ps fuel (some s) prev nc sl log =
          some (.ok (prev2, sl2, log2)) ∧
        sl2.Nodup ∧
        (∀ x ∈ sl2, x ∈ sl ∨ x = s ∨ x ∈ S) ∧
        prev2.length + sl.length = prev.length + sl2.length ∧
        log2.length + sl.length = log.length + sl2.length := by
  intro fuel
  induction fuel with
  | zero =>
    intro s sl prev log hs hnsl hnd hfuel
    exfalso
    rcases hfuel with ⟨hsS, hrc⟩ | hrc
    · have := Nat.le_trans (remainingCount_pos hsS hnsl) hrc
      omega
    · omega
  | succ fuel ih =>
    intro s sl prev log hs hnsl hnd hfuel
    simp only [WhoisParser.get_whois_raw_method, if_neg hs, hd,
      process_response_spec]
    cases hext : WhoisParser.extract_whois_serverS
        (cutResponse d s (env.net s (WhoisParser.prepare_request d s)))
        (sl ++ [s]) with
    | none =>
      refine ⟨_, sl ++ [s], _, rfl, nodup_append_singleton hnd hnsl, ?_, ?_, ?_⟩
      · intro x hx
        rcases List.mem_append.mp hx with hx | hx
        · exact Or.inl hx
        · exact Or.inr (Or.inl (List.mem_singleton.mp hx))
      · simp
        omega
      · simp
        omega
    | some new =>
      have hnewS : new ∈ S := HS s sl new hext
      obtain ⟨hnew_nmem, hnew_ne⟩ := extract_whois_serverS_some hext
      have hnew_nsl : new ∉ sl ++ [s] := hnew_nmem
      have hbound : remainingCount S (sl ++ [s]) ≤ fuel := by
        rcases hfuel with ⟨hsS, hrc⟩ | hrc
        · have := remainingCount_append_lt hsS hnsl
          omega
        · have := remainingCount_append_le S sl s
          omega
      obtain ⟨prev2, sl2, log2, heq, hnd2, hmem2, hlen1, hlen2⟩ :=
        ih new (sl ++ [s]) _ _ hnew_ne hnew_nsl
          (nodup_append_singleton hnd hnsl) (Or.inl ⟨hnewS, hbound⟩)
      refine ⟨prev2, sl2, log2, heq, hnd2, ?_, ?_, ?_⟩
      · intro x hx
        rcases hmem2 x hx with hx2 | hx2 | hx2
        · rcases List.mem_append.mp hx2 with hx3 | hx3
          · exact Or.inl hx3
          · exact Or.inr (Or.inl (List.mem_singleton.mp hx3))
        · subst hx2
          exact Or.inr (Or.inr hnewS)
        · exact Or.inr (Or.inr hx2)
      · simp at hlen1 ⊢
        omega
      · simp at hlen2 ⊢
        omega

/-!  Claim C5: the query-formatter quirk table. -/

/-- C5: `prepare_request` applies exactly the first matching rule of the
quirk table in priority order — `whois.jprs.jp` appends `/e`; else a
`.de` domain at the DENIC servers gets the `-T dn,ace ` flag prefix; else
`whois.verisign-grs.com` gets the `=` exact-match prefix; otherwise the
domain is returned unmodified — with the three concrete instances of the
spec. -/
theorem claim_C5 :
    (∀ domain server : String,
      WhoisParser.prepare_request domain server =
        if server = "whois.jprs.jp" then domain ++ "/e"
        else if pyEndswith domain ".de" = true ∧
            (server = "whois.denic.de" ∨ server = "de.whois-servers.net") then
          "-T dn,ace " ++ domain
        else if server = "whois.verisign-grs.com" then "=" ++ domain
        else domain) ∧
    WhoisParser.prepare_request "example.de" "whois.denic.de" =
      "-T dn,ace example.de" ∧
    WhoisParser.prepare_request "example.com" "whois.verisign-grs.com" =
      "=example.com" ∧
    WhoisParser.prepare_request "example.org" "whois.opensrs.net" =
      "example.org" := by
  refine ⟨?_, by decide, by decide, by decide⟩
  intro domain server
  unfold WhoisParser.prepare_request
  split_ifs <;> simp_all

/-!  Claim C4: the static override table lookup. -/

theorem pyEndswith_false_of {domain : String} (k1 k2 : String)
    (h : pyEndswith domain k2 = true) (hn1 : ¬ (k1.data <:+ k2.data))
    (hn2 : ¬ (k2.data <:+ k1.data)) : pyEndswith domain k1 = false := by
  unfold pyEndswith at *
  apply decide_eq_false
  intro h1
  rcases List.suffix_or_suffix_of_suffix h1 (of_decide_eq_true h) with hc | hc
  · exact hn1 hc
  · exact hn2 hc

/-- C4 counterexample: the claim asserts the static-table suffix match is
case-insensitive. The domain `"foo.MOE"` matches the table key `".moe"`
case-insensitively (its lowercasing ends with `".moe"`), yet
`get_default_server` rejects it (Python `endswith` is case-sensitive), so
`get_root_server` performs an IANA network call (non-empty call log) and
returns the referral found there, not the table's `whois.nic.moe`. -/
theorem claim_C4_counterexample :
    pyEndswith (String.mk ("foo.MOE".data.map Char.toLower)) ".moe" = true ∧
    WhoisParser.get_default_server "foo.MOE" = none ∧
    get_root_server envRefer "foo.MOE" =
      .ok ("whois.other.example", [⟨WhoisParser.IANA_SERVER, "foo.MOE"⟩]) ∧
    ("whois.other.example" : String) ≠ "whois.nic.moe" := by
  refine ⟨by decide, by decide, ?_, by decide⟩
  rfl

/-- C4 (amended): the suffix comparison is case-sensitive (Python
`str.endswith`). For every domain that ends (case-sensitively) with a key
of the static table, `get_default_server` returns that key's server — the
keys are pairwise non-overlapping, so the match is unique and trivially
the longest — and `get_root_server` then returns it with the network-call
log untouched (no network call). -/
theorem claim_C4 :
    (∀ domain : String, pyEndswith domain ".ac.uk" = true →
      WhoisParser.get_default_server domain = some "whois.ja.net") ∧
    (∀ domain : String, pyEndswith domain ".ps" = true →
      WhoisParser.get_default_server domain = some "whois.pnina.ps") ∧
    (∀ domain : String, pyEndswith domain ".buzz" = true →
      WhoisParser.get_default_server domain = some "whois.nic.buzz") ∧
    (∀ domain : String, pyEndswith domain ".moe" = true →
      WhoisParser.get_default_server domain = some "whois.nic.moe") ∧
    (∀ domain : String, pyEndswith domain "example.com" = true →
      WhoisParser.get_default_server domain = some "whois.verisign-grs.com") ∧
    (∀ (env : Env) (ps : WhoisParser) (log : List NetCall) (s : String),
      WhoisParser.get_default_server ps.domain = some s →
      WhoisParser.get_root_server env ps log = .ok (s, log)) := by
  refine ⟨?_, ?_, ?_, ?_, ?_, ?_⟩
  · intro domain h
    simp [WhoisParser.get_default_server, WhoisParser.root_servers, h]
  · intro domain h
    have e1 := pyEndswith_false_of ".ac.uk" ".ps" h (by decide) (by decide)
    simp [WhoisParser.get_default_server, WhoisParser.root_servers, e1, h]
  · intro domain h
    have e1 := pyEndswith_false_of ".ac.uk" ".buzz" h (by decide) (by decide)
    have e2 := pyEndswith_false_of ".ps" ".buzz" h (by decide) (by decide)
    simp [WhoisParser.get_default_server, WhoisParser.root_servers, e1, e2, h]
  · intro domain h
    have e1 := pyEndswith_false_of ".ac.uk" ".moe" h (by decide) (by decide)
    have e2 := pyEndswith_false_of ".ps" ".moe" h (by decide) (by decide)
    have e3 := pyEndswith_false_of ".buzz" ".moe" h (by decide) (by decide)
    simp [WhoisParser.get_default_server, WhoisParser.root_servers,
      e1, e2, e3, h]
  · intro domain h
    have e1 := pyEndswith_false_of ".ac.uk" "example.com" h (by decide) (by decide)
    have e2 := pyEndswith_false_of ".ps" "example.com" h (by decide) (by decide)
    have e3 := pyEndswith_false_of ".buzz" "example.com" h (by decide) (by decide)
    have e4 := pyEndswith_false_of ".moe" "example.com" h (by decide) (by decide)
    simp [WhoisParser.get_default_server, WhoisParser.root_servers,
      e1, e2, e3, e4, h]
  · intro env ps log s h
    unfold WhoisParser.get_root_server
    rw [h]

/-- C4 witness: at the concrete domain `"foo.moe"` the amended theorem
applies and yields the table's server with no network call. -/
theorem claim_C4_witness :
    pyEndswith "foo.moe" ".moe" = true ∧
    WhoisParser.get_default_server "foo.moe" = some "whois.nic.moe" ∧
    WhoisParser.get_root_server envRefer ⟨"foo.moe", true⟩ [] =
      .ok ("whois.nic.moe", []) :=
  ⟨by decide, claim_C4.2.2.2.1 "foo.moe" (by decide),
    claim_C4.2.2.2.2.2 envRefer ⟨"foo.moe", true⟩ [] "whois.nic.moe"
      (claim_C4.2.2.2.1 "foo.moe" (by decide))⟩

/-!  Claim C8: the two-tier response decoding. -/

/-- C8: decoding a response byte buffer tries UTF-8 first and falls back
to ISO-8859-1, which decodes every byte sequence, so the result is always
`ok` — the UTF-8 decoding when it succeeds and the ISO-8859-1 (identity)
decoding otherwise — and the `DecodeError` branch naming the server is
unreachable; in particular the invalid-UTF-8 buffer `[0xFF]` is decoded
rather than raising. -/
theorem claim_C8 :
    (∀ (result : List Nat) (server : String),
      WhoisParser.server_process_result result server =
        .ok ((utf8Decode result).getD result)) ∧
    (∀ bs : List Nat, latin1Decode bs = some bs) ∧
    utf8Decode [0xFF] = none ∧
    WhoisParser.server_process_result [0xFF] "whois.example.net" = .ok [0xFF] ∧
    (∀ (result : List Nat) (server : String),
      WhoisParser.server_process_result result server ≠
        .error (.decodeError server)) := by
  have hmain : ∀ (result : List Nat) (server : String),
      WhoisParser.server_process_result result server =
        .ok ((utf8Decode result).getD result) := by
    intro result server
    unfold WhoisParser.server_process_result
    cases utf8Decode result with
    | some t => rfl
    | none => rfl
  refine ⟨hmain, fun bs => rfl, by decide, by rfl, ?_⟩
  intro result server h
  rw [hmain] at h
  exact Except.noConfusion h

/-- C8 witness: the decode theorem applied to the concrete invalid-UTF-8
buffer `[0xFF]`. -/
theorem claim_C8_witness :
    WhoisParser.server_process_result [0xFF] "whois.example.net" =
      .ok ((utf8Decode [0xFF]).getD [0xFF]) :=
  claim_C8.1 [0xFF] "whois.example.net"

/-!  Claim C9: idempotence of IDNA normalization on ACE-form input. -/

/-- C9: for every domain already in ASCII-Compatible-Encoding form (all
ASCII, valid label lengths), `convert_to_rfc3490` returns it unchanged —
regardless of how the non-ASCII IDNA path is implemented — and is
therefore idempotent on such domains. -/
theorem claim_C9 :
    ∀ (toAsciiNA : String → Except String String) (domain : String),
      aceForm domain = true →
      WhoisParser.convert_to_rfc3490 toAsciiNA domain = .ok domain ∧
      (WhoisParser.convert_to_rfc3490 toAsciiNA domain).bind
          (WhoisParser.convert_to_rfc3490 toAsciiNA) =
        WhoisParser.convert_to_rfc3490 toAsciiNA domain := by
  intro f domain h
  unfold aceForm at h
  simp only [Bool.and_eq_true] at h
  obtain ⟨⟨hascii, hlab1⟩, hlab2⟩ := h
  have hmain : WhoisParser.convert_to_rfc3490 f domain = .ok domain := by
    unfold WhoisParser.convert_to_rfc3490 idnaEncode
    by_cases he : domain = ""
    · rw [if_pos he, he]
    · rw [if_neg he, if_pos hascii, if_pos (by rw [hlab1, hlab2]; rfl)]
  refine ⟨hmain, ?_⟩
  rw [hmain]
  show WhoisParser.convert_to_rfc3490 f domain = _
  rw [hmain]

/-- C9 witness: the ASCII domain `"example.com"` is in ACE form and is
left unchanged by normalization. -/
theorem claim_C9_witness :
    aceForm "example.com" = true ∧
    WhoisParser.convert_to_rfc3490 idOk "example.com" = .ok "example.com" :=
  ⟨by decide, (claim_C9 idOk "example.com" (by decide)).1⟩

/-!  Claim C2: the referral extractor. -/

theorem mem_map_data_iff (x : List Char) (sl : List String) :
    String.mk x ∈ sl ↔ x ∈ sl.map String.data := by
  constructor
  · intro h
    exact List.mem_map_of_mem String.data h
  · intro h
    obtain ⟨y, hy, he⟩ := List.mem_map.mp h
    subst he
    exact hy

theorem decide_not_mem_eq (x : List Char) (sl : List String) :
    (decide (String.mk x ∉ sl)) = !(sl.map String.data).contains x := by
  cases hc : (sl.map String.data).contains x with
  | true =>
    have : x ∈ sl.map String.data := List.elem_iff.mp hc
    simp [(mem_map_data_iff x sl).mpr this]
  | false =>
    have hnm : x ∉ sl.map String.data := by
      intro hm
      have h2 : (sl.map String.data).contains x = true := List.elem_iff.mpr hm
      rw [hc] at h2
      exact Bool.false_ne_true h2
    have hns : String.mk x ∉ sl := fun hm => hnm ((mem_map_data_iff x sl).mp hm)
    simp [hns]

theorem find?_map_mk (items : List (List Char)) (sl : List String) :
    (items.find? (fun x => !(sl.map String.data).contains x
        && !subOccurs "://".data x)).map String.mk =
      (items.map String.mk).find?
        (fun s => decide (s ∉ sl) && !subOccurs "://".data s.data) := by
  induction items with
  | nil => rfl
  | cons x t ih =>
    simp only [List.map_cons, List.find?_cons]
    have hpe : (decide (String.mk x ∉ sl)
        && !subOccurs "://".data (String.mk x).data) =
        (!(sl.map String.data).contains x && !subOccurs "://".data x) := by
      rw [decide_not_mem_eq]
    cases hb : (!(sl.map String.data).contains x && !subOccurs "://".data x) with
    | true => rw [hpe, hb]; rfl
    | false => rw [hpe, hb]; exact ih

/-- C2: for every response and visited list, `extract_whois_server`
returns exactly the first scanned pattern token that is not yet visited
and not URL-form (`"://"`), and any returned token does follow one of the
labels `refer` / `whois server` / `referral url` / `registrar whois`
(case-insensitively) after a colon and (possibly empty) whitespace, is a
maximal non-whitespace run with an interior dot, is unvisited and is not
URL-form; the spec's two concrete examples behave as stated (the pure-URL
candidate yields no referral). -/
theorem claim_C2 :
    (∀ (response : String) (server_list : List String),
      WhoisParser.extract_whois_serverS response server_list =
        ((whois_regexp_findall response.data).map String.mk).find?
          (fun s => decide (s ∉ server_list)
            && !subOccurs "://".data s.data)) ∧
    (∀ (response : String) (server_list : List String) (s : String),
      WhoisParser.extract_whois_serverS response server_list = some s →
        ReferralToken response.data s.data ∧ s ∉ server_list ∧
          subOccurs "://".data s.data = false) ∧
    WhoisParser.extract_whois_serverS
        "Whois Server: whois.example-registry.net" [] =
      some "whois.example-registry.net" ∧
    WhoisParser.extract_whois_serverS
        "referral URL: https://rdap.example.net" [] = none := by
  refine ⟨?_, ?_, by decide, by decide⟩
  · intro response server_list
    unfold WhoisParser.extract_whois_serverS WhoisParser.extract_whois_server
    rw [extractLoop_eq_find?, whois_regexp_findall_map_strip,
      find?_map_mk]
  · intro response server_list s h
    unfold WhoisParser.extract_whois_serverS WhoisParser.extract_whois_server at h
    cases he : extractLoop (whois_regexp_findall response.data)
        (server_list.map String.data) with
    | none => rw [he] at h; exact Option.noConfusion h
    | some sd =>
      rw [he] at h
      injection h with h
      subst h
      obtain ⟨hnm, hurl, item, hitem, hsd⟩ := extractLoop_some he
      have hstrip : pyStrip item = item :=
        pyStrip_eq_self (whois_regexp_findall_mem hitem).1
      rw [hstrip] at hsd
      subst hsd
      refine ⟨whois_regexp_findall_referralToken hitem, ?_, hurl⟩
      intro hmem
      exact hnm ((mem_map_data_iff _ server_list).mp hmem)

/-- C2 witness: the extractor's guarantees instantiated at the concrete
response line of the spec. -/
theorem claim_C2_witness :
    ReferralToken "Whois Server: whois.example-registry.net".data
        "whois.example-registry.net".data ∧
      ("whois.example-registry.net" : String) ∉ ([] : List String) ∧
      subOccurs "://".data "whois.example-registry.net".data = false :=
  claim_C2.2.1 "Whois Server: whois.example-registry.net" [] _ (by decide)

/-!  Claim C3: verisign record selection and the never_cut flag. -/

/-- C3 counterexample: the claim says only a block containing the literal
line `Domain Name: <DOMAIN-UPPERCASE>` may be selected (full response kept
otherwise).  For domain `"a.b"` the code interpolates the domain into a
regular expression, whose `.` matches any character: the block
`"Domain Name: AXB\nrest"` is selected and inserted into the chain even
though no block of the response contains the literal text
`Domain Name: A.B` — the claim instead requires the full two-block
response to be kept. -/
theorem claim_C3_counterexample :
    WhoisParser.process_response "junk\n\nDomain Name: AXB\nrest" "a.b"
        "whois.verisign-grs.com" [] [] false =
      ("Domain Name: AXB\nrest", ["Domain Name: AXB\nrest"],
        ["whois.verisign-grs.com"]) ∧
    (splitDoubleNL "junk\n\nDomain Name: AXB\nrest".data).all
      (fun record => !subOccurs "Domain Name: A.B".data record) = true ∧
    ("Domain Name: AXB\nrest" : String) ≠ "junk\n\nDomain Name: AXB\nrest" := by
  refine ⟨by rfl, by decide, by decide⟩

/-- C3 (amended): for the verisign server the response is split on
`"\n\n"` and replaced by the first block on which the regex search for
`Domain Name: <DOMAIN-UPPERCASE>` followed by a newline succeeds (each
`.` of the domain matching any non-newline character); the full response
is kept when no block matches.  With `never_cut = false` the selected
block is inserted into the chain, with `never_cut = true` the full
response is inserted, and in both modes the returned (scanned) response
is the selected block.  The spec's concrete two-block scenario behaves as
claimed. -/
theorem claim_C3 :
    (∀ (resp domain : String) (prev sl : List String) (nc : Bool),
      WhoisParser.process_response resp domain "whois.verisign-grs.com"
          prev sl nc =
        (WhoisParser.verisign_select domain resp,
         (if nc then resp else WhoisParser.verisign_select domain resp) :: prev,
         sl ++ ["whois.verisign-grs.com"])) ∧
    (∀ (domain resp : String),
      (splitDoubleNL resp.data).all (fun record =>
        !reSearch ("Domain Name: ".data ++ (pyUpper domain).data ++ ['\n'])
          record) = true →
      WhoisParser.verisign_select domain resp = resp) ∧
    get_whois_raw envVerisign 1 "example.com" "" true false =
      some (.ok (["Domain Name: EXAMPLE.COM\nRegistrar B"],
        ["whois.verisign-grs.com"],
        [⟨"whois.verisign-grs.com", "=example.com"⟩])) ∧
    get_whois_raw envVerisign 1 "example.com" "" true true =
      some (.ok
        (["Domain Name: OTHER.COM\nRegistrar A\n\nDomain Name: EXAMPLE.COM\nRegistrar B"],
        ["whois.verisign-grs.com"],
        [⟨"whois.verisign-grs.com", "=example.com"⟩])) := by
  refine ⟨?_, ?_, by rfl, by rfl⟩
  · intro resp domain prev sl nc
    rw [process_response_spec]
    unfold cutResponse
    rw [if_pos rfl]
  · intro domain resp hall
    have hnone : (splitDoubleNL resp.data).find? (fun record =>
        reSearch ("Domain Name: ".data ++ (pyUpper domain).data ++ ['\n'])
          record) = none := by
      rw [List.find?_eq_none]
      intro record hrec
      have hfalse := List.all_eq_true.mp hall record hrec
      simp only [Bool.not_eq_true'] at hfalse
      exact ne_true_of_eq_false hfalse
    unfold WhoisParser.verisign_select
    simp only [hnone]

/-- C3 witness: the fallback clause applied to a referral-free response in
which no block matches — the response is kept unmodified. -/
theorem claim_C3_witness :
    (splitDoubleNL "hello world".data).all (fun record =>
      !reSearch ("Domain Name: ".data ++ (pyUpper "a.b").data ++ ['\n'])
        record) = true ∧
    WhoisParser.verisign_select "a.b" "hello world" = "hello world" :=
  ⟨by decide, claim_C3.2.1 "a.b" "hello world" (by decide)⟩

/-!  Claim C6: ordering of the response chain. -/

/-- C6 counterexample: the claim says `never_cut = true` yields the chain
in original query order.  In the two-query chain environment the run with
`never_cut = true` produces `["terminal record", <first response>]` —
most-recent-first, i.e. the reverse of the original query order. -/
theorem claim_C6_counterexample :
    WhoisParser.get_whois_raw_method envChain ⟨"example.org", true⟩ 2
        (some "whois.first.example") [] true [] [] =
      some (.ok (["terminal record", "Whois Server: whois.second.example\n"],
        ["whois.first.example", "whois.second.example"],
        [⟨"whois.first.example", "example.org"⟩,
         ⟨"whois.second.example", "example.org"⟩])) ∧
    (["terminal record", "Whois Server: whois.second.example\n"] :
        List String) ≠
      ["Whois Server: whois.second.example\n", "terminal record"] := by
  refine ⟨by rfl, by decide⟩

/-- C6 (amended): the ordering of the Response Chain is not controlled by
`never_cut`: each processed response is inserted at the front in both
modes, so the chain is most-recent-first (oldest-last) always; the flag
controls only whether the inserted text is the raw response or the
verisign-selected one.  In the concrete two-query chain both flag values
give the same most-recent-first order. -/
theorem claim_C6 :
    (∀ (resp domain srv : String) (prev sl : List String) (nc : Bool),
      (WhoisParser.process_response resp domain srv prev sl nc).2.1 =
        (if nc then resp else cutResponse domain srv resp) :: prev) ∧
    WhoisParser.get_whois_raw_method envChain ⟨"example.org", true⟩ 2
        (some "whois.first.example") [] true [] [] =
      some (.ok (["terminal record", "Whois Server: whois.second.example\n"],
        ["whois.first.example", "whois.second.example"],
        [⟨"whois.first.example", "example.org"⟩,
         ⟨"whois.second.example", "example.org"⟩])) ∧
    WhoisParser.get_whois_raw_method envChain ⟨"example.org", true⟩ 2
        (some "whois.first.example") [] false [] [] =
      some (.ok (["terminal record", "Whois Server: whois.second.example\n"],
        ["whois.first.example", "whois.second.example"],
        [⟨"whois.first.example", "example.org"⟩,
         ⟨"whois.second.example", "example.org"⟩])) := by
  refine ⟨?_, by rfl, by rfl⟩
  intro resp domain srv prev sl nc
  rw [process_response_spec]

/-!  Claim C7: the no-authority error of the root-server lookup. -/

/-- C7: when the wire-form domain is available, `get_root_server` raises
the no-authority error exactly when the static table misses and referral
extraction over the IANA response (with an empty prior server list)
yields nothing; a static hit returns the table server with no network
call, and an extracted referral is returned after the one IANA call. -/
theorem claim_C7 :
    ∀ (env : Env) (ps : WhoisParser) (log : List NetCall) (d : String),
      WhoisParser.usedDomain env ps = .ok d →
      (WhoisParser.get_root_server env ps log = .error .noAuthority ↔
        (WhoisParser.get_default_server ps.domain = none ∧
         WhoisParser.extract_whois_serverS
           (env.net WhoisParser.IANA_SERVER d) [] = none)) ∧
      (∀ s, WhoisParser.get_default_server ps.domain = some s →
        WhoisParser.get_root_server env ps log = .ok (s, log)) ∧
      (WhoisParser.get_default_server ps.domain = none →
        ∀ s, WhoisParser.extract_whois_serverS
            (env.net WhoisParser.IANA_SERVER d) [] = some s →
          WhoisParser.get_root_server env ps log =
            .ok (s, log ++ [⟨WhoisParser.IANA_SERVER, d⟩])) := by
  intro env ps log d hd
  refine ⟨?_, ?_, ?_⟩
  · constructor
    · intro h
      unfold WhoisParser.get_root_server at h
      cases hdef : WhoisParser.get_default_server ps.domain with
      | some s => rw [hdef] at h; exact Except.noConfusion h
      | none =>
        rw [hdef] at h
        simp only [hd] at h
        cases hext : WhoisParser.extract_whois_serverS
            (env.net WhoisParser.IANA_SERVER d) [] with
        | some s =>
          rw [hext] at h
          exact Except.noConfusion h
        | none => exact ⟨rfl, rfl⟩
    · rintro ⟨hdef, hext⟩
      unfold WhoisParser.get_root_server
      rw [hdef]
      simp only [hd, hext]
  · intro s hdef
    unfold WhoisParser.get_root_server
    rw [hdef]
  · intro hdef s hext
    unfold WhoisParser.get_root_server
    rw [hdef]
    simp only [hd, hext]

/-- C7 witness: with a referral-free IANA response and a domain matching
no static entry, the lookup raises exactly the no-authority error. -/
theorem claim_C7_witness :
    WhoisParser.usedDomain envPlain ⟨"foo.test", false⟩ = .ok "foo.test" ∧
    WhoisParser.get_root_server envPlain ⟨"foo.test", false⟩ [] =
      .error .noAuthority :=
  ⟨rfl, (claim_C7 envPlain ⟨"foo.test", false⟩ [] "foo.test" rfl).1.mpr
    ⟨by decide, by decide⟩⟩

/-!  Claim C10: the falsy-server default at the public interface. -/

/-- C10: the module-level `get_whois_raw` defaults its server argument to
the empty string, and the method treats any falsy server (`None` or `""`)
as "no explicit server": it invokes the Root Server Locator, which is the
only place an IANA root lookup happens; a non-empty server string is
queried directly — the loop body runs on it with the call log passed
through unchanged, with no root-locator involvement. -/
theorem claim_C10 :
    (∀ (env : Env) (fuel : Nat) (domain : String),
      get_whois_raw_defaults env fuel domain =
        get_whois_raw env fuel domain "" true false) ∧
    (∀ (env : Env) (ps : WhoisParser) (fuel : Nat) (prev : List String)
        (nc : Bool) (sl : List String) (log : List NetCall),
      WhoisParser.get_whois_raw_method env ps (fuel + 1) (some "") prev nc sl log =
        WhoisParser.get_whois_raw_method env ps (fuel + 1) none prev nc sl log) ∧
    (∀ (env : Env) (ps : WhoisParser) (fuel : Nat) (prev : List String)
        (nc : Bool) (sl : List String) (log : List NetCall),
      WhoisParser.get_whois_raw_method env ps (fuel + 1) none prev nc sl log =
        match WhoisParser.get_root_server env ps log with
        | .error e => some (.error e)
        | .ok (r, log2) => get_whois_raw_from env ps fuel r prev nc sl log2) ∧
    (∀ (env : Env) (ps : WhoisParser) (fuel : Nat) (prev : List String)
        (nc : Bool) (sl : List String) (log : List NetCall) (s : String),
      s ≠ "" →
      WhoisParser.get_whois_raw_method env ps (fuel + 1) (some s) prev nc sl log =
        get_whois_raw_from env ps fuel s prev nc sl log) := by
  refine ⟨fun env fuel domain => rfl, ?_, ?_, ?_⟩
  · intro env ps fuel prev nc sl log
    simp only [WhoisParser.get_whois_raw_method, if_true]
  · intro env ps fuel prev nc sl log
    simp only [WhoisParser.get_whois_raw_method]
    cases hroot : WhoisParser.get_root_server env ps log with
    | error e => rfl
    | ok rl => unfold get_whois_raw_from; rfl
  · intro env ps fuel prev nc sl log s hs
    simp only [WhoisParser.get_whois_raw_method, if_neg hs]
    unfold get_whois_raw_from
    rfl

/-- C10 witness: a non-empty explicit server is queried directly (the
choice step adds nothing to the log and consults no root locator). -/
theorem claim_C10_witness :
    ("whois.example.net" : String) ≠ "" ∧
    WhoisParser.get_whois_raw_method envPlain ⟨"example.org", false⟩ 1
        (some "whois.example.net") [] false [] [] =
      get_whois_raw_from envPlain ⟨"example.org", false⟩ 0
        "whois.example.net" [] false [] [] :=
  ⟨by decide, claim_C10.2.2.2 envPlain ⟨"example.org", false⟩ 0 [] false [] []
    "whois.example.net" (by decide)⟩

/-!  Claim C1: loop protection and termination. -/

theorem get_default_server_mem {domain s : String}
    (h : WhoisParser.get_default_server domain = some s) :
    s ∈ WhoisParser.root_servers.map Prod.snd := by
  obtain ⟨p, hp, he⟩ := List.exists_of_findSome?_eq_some h
  by_cases hc : pyEndswith domain p.1 = true
  · rw [if_pos hc] at he
    injection he with he
    subst he
    exact List.mem_map_of_mem Prod.snd hp
  · rw [if_neg hc] at he
    exact Option.noConfusion he

theorem get_root_server_ne_empty {env : Env} {ps : WhoisParser}
    {log : List NetCall} {r : String} {log1 : List NetCall}
    (h : WhoisParser.get_root_server env ps log = .ok (r, log1)) : r ≠ "" := by
  unfold WhoisParser.get_root_server at h
  cases hdef : WhoisParser.get_default_server ps.domain with
  | some s =>
    rw [hdef] at h
    injection h with h
    injection h with h1 h2
    subst h1
    have hmem := get_default_server_mem hdef
    simp only [WhoisParser.root_servers, List.map_cons, List.map_nil,
      List.mem_cons, List.not_mem_nil, or_false] at hmem
    rcases hmem with h | h | h | h | h <;> subst h <;> decide
  | none =>
    rw [hdef] at h
    cases hdom : WhoisParser.usedDomain env ps with
    | error msg =>
      simp only [hdom] at h
      exact Except.noConfusion h
    | ok d =>
      simp only [hdom] at h
      cases hext : WhoisParser.extract_whois_serverS
          (env.net WhoisParser.IANA_SERVER d) [] with
      | none => rw [hext] at h; exact Except.noConfusion h
      | some s2 =>
        rw [hext] at h
        injection h with h
        injection h with h1 h2
        subst h1
        exact (extract_whois_serverS_some hext).2

theorem get_whois_raw_method_falsy (env : Env) (ps : WhoisParser)
    (fuel : Nat) (prev : List String) (nc : Bool) (sl : List String)
    (log : List NetCall) {r : String} {log1 : List NetCall}
    (hroot : WhoisParser.get_root_server env ps log = .ok (r, log1))
    (hr : r ≠ "") :
    WhoisParser.get_whois_raw_method env ps (fuel + 1) none prev nc sl log =
      WhoisParser.get_whois_raw_method env ps (fuel + 1) (some r) prev nc sl log1 ∧
    WhoisParser.get_whois_raw_method env ps (fuel + 1) (some "") prev nc sl log =
      WhoisParser.get_whois_raw_method env ps (fuel + 1) (some r) prev nc sl log1 := by
  refine ⟨?_, ?_⟩
  · simp only [WhoisParser.get_whois_raw_method, hroot, if_neg hr]
  · simp only [WhoisParser.get_whois_raw_method, hroot, if_neg hr]
    rfl

theorem get_whois_raw_method_falsy_error (env : Env) (ps : WhoisParser)
    (fuel : Nat) (prev : List String) (nc : Bool) (sl : List String)
    (log : List NetCall) {e : WhoisErr}
    (hroot : WhoisParser.get_root_server env ps log = .error e) :
    WhoisParser.get_whois_raw_method env ps (fuel + 1) none prev nc sl log =
      some (.error e) ∧
    WhoisParser.get_whois_raw_method env ps (fuel + 1) (some "") prev nc sl log =
      some (.error e) := by
  constructor <;> simp only [WhoisParser.get_whois_raw_method, hroot, if_true]

theorem remainingCount_nil (S : List String) :
    remainingCount S [] = S.length := by
  unfold remainingCount
  rw [List.filter_eq_self.mpr (fun x _ => by simp)]

/-- C1: honouring the visited-server list.  Whenever the wire-form domain
is available and every referral the environment can produce lies in a
finite universe `S`, the resolution terminates within fuel `|S| + 2`
(i.e. after at most `|S| + 1` queries — one per distinct server); on
success the Visited Server List is duplicate-free (no server is ever
queried twice) with at most `|S| + 1` entries and exactly one response
per query.  Moreover a referral server is only ever chosen if it is
absent from the visited list at that moment, the queried server is
appended to the list by response processing, and when every extractable
token is already visited (or URL-form) extraction returns nothing, so the
loop stops rather than re-querying. -/
theorem claim_C1 :
    ∀ (env : Env) (ps : WhoisParser) (nc : Bool) (S : List String)
      (server0 : Option String) (fuel : Nat) (d : String),
      WhoisParser.usedDomain env ps = .ok d →
      (∀ srv sl s, iterReferral env d srv sl = some s → s ∈ S) →
      S.length + 2 ≤ fuel →
      (∃ r, WhoisParser.get_whois_raw_method env ps fuel server0 [] nc [] [] =
        some r) ∧
      (∀ prev sl log,
        WhoisParser.get_whois_raw_method env ps fuel server0 [] nc [] [] =
          some (.ok (prev, sl, log)) →
        sl.Nodup ∧ sl.length ≤ S.length + 1 ∧ prev.length = sl.length) ∧
      (∀ (resp : String) (sl2 : List String) (s : String),
        WhoisParser.extract_whois_serverS resp sl2 = some s → s ∉ sl2) ∧
      (∀ (resp domain srv : String) (prev2 sl2 : List String) (nc2 : Bool),
        (WhoisParser.process_response resp domain srv prev2 sl2 nc2).2.2 =
          sl2 ++ [srv]) ∧
      (∀ (resp : String) (sl2 : List String),
        (∀ t ∈ whois_regexp_findall resp.data,
          String.mk (pyStrip t) ∈ sl2 ∨
            subOccurs "://".data (pyStrip t) = true) →
        WhoisParser.extract_whois_serverS resp sl2 = none) := by
  intro env ps nc S server0 fuel d hd HS hfuel
  obtain ⟨fuel2, rfl⟩ : ∃ f, fuel = f + 1 := ⟨fuel - 1, by omega⟩
  have main : (∃ r, WhoisParser.get_whois_raw_method env ps (fuel2 + 1)
        server0 [] nc [] [] = some r) ∧
      (∀ prev sl log,
        WhoisParser.get_whois_raw_method env ps (fuel2 + 1) server0 [] nc [] [] =
          some (.ok (prev, sl, log)) →
        sl.Nodup ∧ sl.length ≤ S.length + 1 ∧ prev.length = sl.length) := by
    have hdirect : ∀ (s : String) (log : List NetCall), s ≠ "" →
        (∃ r, WhoisParser.get_whois_raw_method env ps (fuel2 + 1)
          (some s) [] nc [] log = some r) ∧
        (∀ prev sl log2,
          WhoisParser.get_whois_raw_method env ps (fuel2 + 1) (some s)
            [] nc [] log = some (.ok (prev, sl, log2)) →
          sl.Nodup ∧ sl.length ≤ S.length + 1 ∧ prev.length = sl.length) := by
      intro s log hs
      obtain ⟨prev2, sl2, log2, heq, hnd2, hmem2, hlen1, hlen2⟩ :=
        get_whois_raw_loop_aux env ps nc S d hd HS (fuel2 + 1) s [] [] log hs
          (by simp) List.nodup_nil
          (Or.inr (by rw [remainingCount_nil]; omega))
      refine ⟨⟨_, heq⟩, ?_⟩
      intro prev sl log3 h
      rw [heq] at h
      injection h with h
      injection h with h
      injection h with h1 h
      injection h with h2 h3
      subst h1; subst h2
      refine ⟨hnd2, ?_, ?_⟩
      · have hsub : sl2 ⊆ s :: S := by
          intro x hx
          rcases hmem2 x hx with hx2 | hx2 | hx2
          · exact absurd hx2 (List.not_mem_nil x)
          · exact hx2 ▸ List.mem_cons_self s S
          · exact List.mem_cons_of_mem s hx2
        have := (List.Nodup.subperm hnd2 hsub).length_le
        simpa using this
      · simpa using hlen1
    rcases server0 with _ | s
    · cases hroot : WhoisParser.get_root_server env ps [] with
      | error e =>
        have he := (get_whois_raw_method_falsy_error env ps fuel2 [] nc []
          [] hroot).1
        refine ⟨⟨_, he⟩, ?_⟩
        intro prev sl log h
        rw [he] at h
        injection h with h
        exact Except.noConfusion h
      | ok rl =>
        obtain ⟨r, log1⟩ := rl
        have hr : r ≠ "" := get_root_server_ne_empty hroot
        have heq := (get_whois_raw_method_falsy env ps fuel2 [] nc []
          [] hroot hr).1
        rw [heq]
        exact hdirect r log1 hr
    · by_cases hs : s = ""
      · subst hs
        cases hroot : WhoisParser.get_root_server env ps [] with
        | error e =>
          have he := (get_whois_raw_method_falsy_error env ps fuel2 [] nc []
            [] hroot).2
          refine ⟨⟨_, he⟩, ?_⟩
          intro prev sl log h
          rw [he] at h
          injection h with h
          exact Except.noConfusion h
        | ok rl =>
          obtain ⟨r, log1⟩ := rl
          have hr : r ≠ "" := get_root_server_ne_empty hroot
          have heq := (get_whois_raw_method_falsy env ps fuel2 [] nc []
            [] hroot hr).2
          rw [heq]
          exact hdirect r log1 hr
      · exact hdirect s [] hs
  refine ⟨main.1, main.2, ?_, ?_, ?_⟩
  · intro resp sl2 s h
    exact (extract_whois_serverS_some h).1
  · intro resp domain srv prev2 sl2 nc2
    rw [process_response_spec]
  · intro resp sl2 hall
    unfold WhoisParser.extract_whois_serverS WhoisParser.extract_whois_server
    rw [extractLoop_none_of_all]
    · rfl
    · intro item hitem
      rcases hall item hitem with hmem | hurl
      · exact Or.inl ((mem_map_data_iff (pyStrip item) sl2).mp hmem)
      · exact Or.inr hurl

/-- C1 witness: with a referral-free environment the universe of
referral servers is empty, and resolution from an explicit server
terminates within the stated fuel. -/
theorem claim_C1_witness :
    WhoisParser.usedDomain envPlain ⟨"example.org", false⟩ = .ok "example.org" ∧
    ([] : List String).length + 2 ≤ 2 ∧
    ∃ r, WhoisParser.get_whois_raw_method envPlain ⟨"example.org", false⟩ 2
        (some "whois.example.net") [] false [] [] = some r := by
  have HS : ∀ srv sl s,
      iterReferral envPlain "example.org" srv sl = some s →
      s ∈ ([] : List String) := by
    intro srv sl s h
    unfold iterReferral at h
    have hcut : cutResponse "example.org" srv
        (envPlain.net srv (WhoisParser.prepare_request "example.org" srv)) =
        "hello world" := by
      show cutResponse "example.org" srv "hello world" = "hello world"
      unfold cutResponse
      by_cases hsrv : srv = "whois.verisign-grs.com"
      · rw [if_pos hsrv]
        decide
      · rw [if_neg hsrv]
    rw [hcut] at h
    unfold WhoisParser.extract_whois_serverS WhoisParser.extract_whois_server at h
    rw [(by decide : whois_regexp_findall "hello world".data = [])] at h
    simp [extractLoop] at h
  exact ⟨rfl, by decide,
    (claim_C1 envPlain ⟨"example.org", false⟩ false [] (some "whois.example.net")
      2 "example.org" rfl HS (by decide)).1⟩
